import Mathlib

/-!
Verification of the JSON-replacement repository (json_replace, json_select,
json_flat). Go's `interface{}` JSON values are modelled as a mutual inductive
tree; Go maps (`map[string]interface{}`) are modelled as association lists in
which map iteration order is the stored order and `m[k] = v` updates the first
binding or appends; `float64` is modelled as an exact rational (all claims
evaluate at inputs where IEEE arithmetic is exact); `log.Fatal` in the middle
of evaluation is modelled as `Option.none`; in-place mutation is modelled as
returning the updated value / explicit state passing.
-/

mutual
inductive JSON where
  | null : JSON
  | bool (b : Bool) : JSON
  | num (q : ℚ) : JSON
  | str (s : String) : JSON
  | obj (fields : Fields) : JSON
  | arr (elems : Elems) : JSON

inductive Fields where
  | nil : Fields
  | cons (key : String) (val : JSON) (rest : Fields) : Fields

inductive Elems where
  | nil : Elems
  | cons (head : JSON) (rest : Elems) : Elems
end

/-- Go map lookup `v, found := m[k]` (first binding wins). -/
def getField : Fields → String → Option JSON
  | .nil, _ => none
  | .cons k v rest, key => if k = key then some v else getField rest key

/-- Go map assignment `m[k] = v`: update the binding if present, else add it. -/
def setField : Fields → String → JSON → Fields
  | .nil, key, v => .cons key v .nil
  | .cons k w rest, key, v =>
    if k = key then .cons k v rest else .cons k w (setField rest key v)

/-- `strings.Cut(s, ".")` on the character list: (before, after, found). -/
def cutCh : List Char → List Char × List Char × Bool
  | [] => ([], [], false)
  | c :: rest =>
    if c = '.' then ([], rest, true)
    else
      let r := cutCh rest
      (c :: r.1, r.2.1, r.2.2)

/-- `strings.Cut(s, ".")`. -/
def cutDot (s : String) : String × String × Bool :=
  let r := cutCh s.data
  (String.mk r.1, String.mk r.2.1, r.2.2)

/-- `strings.Split(s, ".")` on the character list. -/
def splitCh : List Char → List (List Char)
  | [] => [[]]
  | c :: rest =>
    if c = '.' then [] :: splitCh rest
    else
      match splitCh rest with
      | [] => [[c]]
      | g :: gs => (c :: g) :: gs

/-- `strings.Split(s, ".")` (never returns an empty list). -/
def splitDots (s : String) : List String :=
  (splitCh s.data).map String.mk

/-- Replacement loop of `strings.Replace(s, old, new, -1)` for nonempty `old`:
left-to-right, non-overlapping. The fuel starts at the string length; every
step consumes at least one character, so it never runs out. -/
def replaceChars (old new : List Char) : Nat → List Char → List Char
  | 0, s => s
  | _ + 1, [] => []
  | f + 1, c :: rest =>
    if old.isPrefixOf (c :: rest) then
      new ++ replaceChars old new f ((c :: rest).drop old.length)
    else
      c :: replaceChars old new f rest

/-- `strings.Replace` with an empty `old` inserts `new` at every rune
boundary, including both ends. -/
def interleave (new : List Char) : List Char → List Char
  | [] => new
  | c :: rest => new ++ c :: interleave new rest

/-- `strings.Replace(s, old, new, -1)`. -/
def strReplaceAll (s old new : String) : String :=
  if old = "" then String.mk (interleave new.data s.data)
  else String.mk (replaceChars old.data new.data s.data.length s.data)

/-- `strings.HasPrefix(s, p)`. -/
def goHasPrefix (s p : String) : Bool := p.data.isPrefixOf s.data

/-- `strings.HasSuffix(s, p)`. -/
def goHasSuffix (s p : String) : Bool := p.data.isSuffixOf s.data

/-- Is this JSON value a Go `map[string]interface{}`? -/
def isObjB : JSON → Bool
  | .obj _ => true
  | _ => false

/-- Is this JSON value a Go `string`? -/
def isStrB : JSON → Bool
  | .str _ => true
  | _ => false

/-- Descend through nested objects along a list of keys. -/
def lookupPath (v : JSON) : List String → Option JSON
  | [] => some v
  | k :: ks =>
    match v with
    | .obj fs =>
      match getField fs k with
      | some w => lookupPath w ks
      | none => none
    | _ => none

/-- Project a string leaf out of an optional JSON value. -/
def asStr : Option JSON → Option String
  | some (.str s) => some s
  | _ => none

/-- Go's `int64(f)` conversion of a float: truncation toward zero
(modelled on exact rationals; `Int.tdiv` truncates toward zero). -/
def int64 (q : ℚ) : ℤ := Int.tdiv q.num (q.den : ℤ)

deriving instance DecidableEq for JSON
deriving instance DecidableEq for Fields
deriving instance DecidableEq for Elems

namespace JsonReplace

/-- Rule struct of json_replace (Go field `Type` is modelled as `rtype`). -/
structure Rule where
  order : ℤ
  rtype : String
  fieldName : String
  original : String
  replacement : String
  duration : ℤ
  maxRecords : ℤ
  startMs : ℤ
deriving DecidableEq

/-- Replay struct: the per-rule mutable cursor (`time`, `index`, `records`).
`records` is set to `MaxRecords` by `Exec` before any file is processed. -/
structure Replay where
  time : ℚ
  index : ℤ
  records : ℤ
deriving DecidableEq

/-- `calculateIncrement(i, duration, records)`:
`k := duration/records; fa := (i-1)*k; fb := i*k; return fb - fa`. -/
def calculateIncrement (i duration records : ℤ) : ℚ :=
  let k : ℚ := (duration : ℚ) / (records : ℚ)
  (i : ℚ) * k - ((i : ℚ) - 1) * k

/-- The locked read-modify-write in `processReplayMap`: compute the new
virtual time, emit `int64(cur)`, advance the cursor. -/
def advanceReplay (duration : ℤ) (st : Replay) : ℤ × Replay :=
  let cur := st.time + calculateIncrement st.index duration st.records
  (int64 cur, { st with time := cur, index := st.index + 1 })

/-- Value produced by the (n+1)-st call to the replay advance function. -/
def iterAdvance (d : ℤ) (st : Replay) : ℕ → ℤ × Replay
  | 0 => advanceReplay d st
  | n + 1 => iterAdvance d (advanceReplay d st).2 n

mutual
/-- `process(k, v, r)`: dispatch on the dynamic type of `v`; scalars are
untouched (mutation is modelled by returning the updated value). -/
def process (k : String) (v : JSON) (r : Rule) : JSON :=
  match v with
  | .obj m => .obj (processMap m r)
  | .arr a => .arr (processArray a k r)
  | v => v

/-- `processMap(m, r)`. The Go `for k, v := range m` (global) and the
`v, found := m[k]` lookup plus `m[k] = ...` store (per-field) are both
realized as one walk over the association list; the `r.Type == "global"`
test only depends on `r`, so re-testing it at each binding is equivalent
to the source's single test. In the per-field branch the local copy
`r.FieldName = next` is modelled by `{r with fieldName := next}`. -/
def processMap (m : Fields) (r : Rule) : Fields :=
  match m with
  | .nil => .nil
  | .cons k v rest =>
    if r.rtype = "global" then
      .cons k
        (match v with
          | .str s => .str (strReplaceAll s r.original r.replacement)
          | v => process k v r)
        (processMap rest r)
    else
      if k = (cutDot r.fieldName).1 then
        .cons k
          (match v with
            | .str s =>
              if (cutDot r.fieldName).2.1 = "" then
                .str (strReplaceAll s r.original r.replacement)
              else .str s
            | v => process (cutDot r.fieldName).1 v { r with fieldName := (cutDot r.fieldName).2.1 })
          rest
      else .cons k v (processMap rest r)

/-- `processArray(a, k, r)`. Note the source substitutes `r.FieldName`
(not `r.Replacement`) into string elements, and only when `k == ""`. -/
def processArray (a : Elems) (k : String) (r : Rule) : Elems :=
  match a with
  | .nil => .nil
  | .cons v rest =>
    .cons
      (match v with
        | .str s => if k = "" then .str (strReplaceAll s r.original r.fieldName) else .str s
        | v => process k v r)
      (processArray rest k r)
end

mutual
/-- `processReplay(k, v, r)` with the rule's replay cursor threaded
explicitly. -/
def processReplay (k : String) (v : JSON) (r : Rule) (st : Replay) : JSON × Replay :=
  match v with
  | .obj m =>
    let p := processReplayMap m r st
    (.obj p.1, p.2)
  | .arr a =>
    let p := processReplayArray a k r st
    (.arr p.1, p.2)
  | v => (v, st)

/-- `processReplayMap(m, r)`: if the field name has no remaining dot, do the
locked advance and store `int64(cur)` under the first segment (creating the
key if absent); otherwise iterate over every child with the field name left
unconsumed. The branch condition only depends on `r`, so re-testing it while
walking the list is equivalent to the source's single test. -/
def processReplayMap (m : Fields) (r : Rule) (st : Replay) : Fields × Replay :=
  if (cutDot r.fieldName).2.1 = "" then
    let a := advanceReplay r.duration st
    (setField m (cutDot r.fieldName).1 (.num (a.1 : ℚ)), a.2)
  else
    match m with
    | .nil => (.nil, st)
    | .cons k v rest =>
      let p := processReplay k v r st
      let q := processReplayMap rest r p.2
      (.cons k p.1 q.1, q.2)

/-- `processReplayArray(a, k, r)`: recurse into every element. -/
def processReplayArray (a : Elems) (k : String) (r : Rule) (st : Replay) : Elems × Replay :=
  match a with
  | .nil => (.nil, st)
  | .cons v rest =>
    let p := processReplay k v r st
    let q := processReplayArray rest k r p.2
    (.cons p.1 q.1, q.2)
end

/-- Modelled from the spec (C6 comparison definition): a timestamp rule
"descends via fieldPath exactly like PerField ... instead of string
substitution, replaces the resolved leaf with an integer derived from the
rule's ReplayState"; doing nothing when the addressed node does not exist.
The dotted path is consumed one segment per object level. -/
def specReplayPath : List String → JSON → ℤ → Replay → JSON × Replay
  | [k], .obj m, d, st =>
    (match getField m k with
      | none => (.obj m, st)
      | some _ =>
        let a := advanceReplay d st
        (.obj (setField m k (.num (a.1 : ℚ))), a.2))
  | k :: ks, .obj m, d, st =>
    (match getField m k with
      | none => (.obj m, st)
      | some w =>
        let p := specReplayPath ks w d st
        (.obj (setField m k p.1), p.2))
  | _, v, _, st => (v, st)

/-- Modelled from the spec (C6 comparison definition): replay descent on the
rule's dotted field path. -/
def specReplay (v : JSON) (r : Rule) (st : Replay) : JSON × Replay :=
  specReplayPath (splitDots r.fieldName) v r.duration st

/-- One observable step of the `Exec`/`startRoutine` dispatcher:
`assign` is the WalkDir callback for a non-directory file
(`assignCounter++; ch <- 1; go startRoutine`), `complete` is a routine's
locked `processCounter += <-ch` (every value sent on `ch` is 1). -/
inductive Step where
  | assign : Step
  | complete : Step
deriving DecidableEq

/-- The dispatcher's shared counters plus the number of routines started but
not yet finished (the values in flight on `ch`). -/
structure Counters where
  assignCounter : ℕ
  processCounter : ℕ
  inFlight : ℕ
deriving DecidableEq

/-- Effect of one step on the counters. -/
def stepRun (s : Counters) : Step → Counters
  | .assign => ⟨s.assignCounter + 1, s.processCounter, s.inFlight + 1⟩
  | .complete => ⟨s.assignCounter, s.processCounter + 1, s.inFlight - 1⟩

/-- Run an interleaving of dispatcher steps. -/
def run (s : Counters) : List Step → Counters
  | [] => s
  | t :: ts => run (stepRun s t) ts

/-- An interleaving is valid when every `complete` has a matching earlier
`assign` still in flight (a routine can only finish after it was started). -/
def validFrom (s : Counters) : List Step → Bool
  | [] => true
  | .assign :: ts => validFrom (stepRun s .assign) ts
  | .complete :: ts => decide (0 < s.inFlight) && validFrom (stepRun s .complete) ts

/-- Counters at the start of `Exec`. -/
def initCounters : Counters := ⟨0, 0, 0⟩

/-- Number of non-directory files discovered during the walk: each one
contributes exactly one `assign` step. -/
def countAssigns (l : List Step) : ℕ := (l.filter (fun t => t = Step.assign)).length

end JsonReplace

namespace JsonSelect

/-- Condition struct of json_select (Go field `Type` is modelled as `ctype`).
Go conditions are pointers stored in the rule, so the traversal's
`c.Key = next` writes through to the rule; that mutation is modelled by
returning the updated condition. -/
structure Condition where
  ctype : String
  key : String
  values : List String
  exclude : Bool
deriving DecidableEq

/-- Rule struct of json_select. -/
structure Rule where
  position : ℤ
  output : String
  conditions : List Condition
deriving DecidableEq

/-- Loop body of `test`: iterate over `values`; `rx` is the external
`regexp.MatchString` collaborator (its parse error is already folded into a
`false` result, as in the source); an unknown condition type hits
`log.Fatal`, modelled as `none` (but only when `values` is nonempty, since
the Go loop body never runs on an empty slice). -/
def testValues (rx : String → String → Bool) (v t : String) : List String → Option Bool
  | [] => some false
  | value :: rest =>
    match t with
    | "match" => if v = value then some true else testValues rx v t rest
    | "prefix" => if goHasPrefix v value then some true else testValues rx v t rest
    | "suffix" => if goHasSuffix v value then some true else testValues rx v t rest
    | "exist" => some true
    | "regex" => if rx value v then some true else testValues rx v t rest
    | _ => none

/-- `test(v, c)`. -/
def test (rx : String → String → Bool) (v : String) (c : Condition) : Option Bool :=
  testValues rx v c.ctype c.values

mutual
/-- `process(k, v, c)`: dispatch on the dynamic type of `v`; scalars other
than the object/array cases yield `false`. Returns the possibly mutated
condition alongside the result. -/
def process (rx : String → String → Bool) (k : String) (v : JSON) (c : Condition) :
    Option (Bool × Condition) :=
  match v with
  | .obj m => processMap rx m c
  | .arr a => processArray rx a k c
  | _ => some (false, c)

/-- `processMap(m, c)`: the `v, found := m[k]` lookup is realized as a walk
over the association list. On descent into a found non-string value the
source overwrites the shared condition's key (`c.Key = next`); that is the
`{c with key := next}` passed down (and returned). -/
def processMap (rx : String → String → Bool) (m : Fields) (c : Condition) :
    Option (Bool × Condition) :=
  match m with
  | .nil => some (false, c)
  | .cons k v rest =>
    if k = (cutDot c.key).1 then
      match v with
      | .str s =>
        if (cutDot c.key).2.1 = "" then (test rx s c).map (fun b => (b, c))
        else some (false, c)
      | v => process rx (cutDot c.key).1 v { c with key := (cutDot c.key).2.1 }
    else processMap rx rest c

/-- `processArray(a, k, c)`: a string element is tested only when `k == ""`
(otherwise the loop moves on); the first non-string element decides the
whole array (immediate `return`). -/
def processArray (rx : String → String → Bool) (a : Elems) (k : String) (c : Condition) :
    Option (Bool × Condition) :=
  match a with
  | .nil => some (false, c)
  | .cons v rest =>
    match v with
    | .str s =>
      if k = "" then (test rx s c).map (fun b => (b, c))
      else processArray rx rest k c
    | v => process rx k v c
end

/-- `processCondition(v, c)`: the raw traversal result XORed with
`c.Exclude` (Go's `!=` on booleans). -/
def processCondition (rx : String → String → Bool) (v : JSON) (c : Condition) :
    Option (Bool × Condition) :=
  (process rx "" v c).map (fun p => (xor p.1 c.exclude, p.2))

/-- Loop of `processRule`: all conditions must hold (short-circuit on the
first false one); mutated conditions are written back into the rule. -/
def processConds (rx : String → String → Bool) (v : JSON) :
    List Condition → Option (Bool × List Condition)
  | [] => some (true, [])
  | c :: rest =>
    match processCondition rx v c with
    | none => none
    | some (b, c') =>
      if b then
        match processConds rx v rest with
        | none => none
        | some (br, rest') => some (br, c' :: rest')
      else some (false, c' :: rest)

/-- `processRule(v, r)`. -/
def processRule (rx : String → String → Bool) (v : JSON) (r : Rule) :
    Option (Bool × Rule) :=
  match processConds rx v r.conditions with
  | none => none
  | some (b, cs) => some (b, { r with conditions := cs })

/-- Rule loop of `handleJSON`: first satisfied rule wins and its output
label is returned; if none is satisfied the record goes to `"default"`.
`none` models `log.Fatal` on an invalid condition type. -/
def handleJSON (rx : String → String → Bool) (v : JSON) :
    List Rule → Option (String × List Rule)
  | [] => some ("default", [])
  | r :: rest =>
    match processRule rx v r with
    | none => none
    | some (b, r') =>
      if b then some (r'.output, r' :: rest)
      else
        match handleJSON rx v rest with
        | none => none
        | some (out, rest') => some (out, r' :: rest')

/-- `NewJSONSelect` sorts the rule list by ascending `Position`
(`sort.Slice` is unstable; insertion sort produces one of its admissible
results, and the dispatch theorems quantify over any sorted permutation). -/
def sortRules (rules : List Rule) : List Rule :=
  List.insertionSort (fun a b => a.position ≤ b.position) rules

end JsonSelect

namespace JsonFlat

/-- Inner loop of `flat` for one input key: walk/create nested maps along
the split segments; a non-map met on the way is the failing
`currentMap[key].(map[string]interface{})` type assertion, modelled as
`none` (runtime panic). -/
def insertPath : List String → String → JSON → Fields → Option Fields
  | [], lastKey, v, m => some (setField m lastKey v)
  | key :: rest, lastKey, v, m =>
    match getField m key with
    | none =>
      match insertPath rest lastKey v Fields.nil with
      | some fs => some (setField m key (.obj fs))
      | none => none
    | some (.obj fs) =>
      match insertPath rest lastKey v fs with
      | some fs' => some (setField m key (.obj fs'))
      | none => none
    | some _ => none

/-- One iteration of `flat`'s `for k, v := range input` body:
`keys := strings.Split(k, "."); lastKey := keys[len-1]; keys = keys[:len-1]`.
(`Split` never yields an empty slice, so the first pattern is unreachable.) -/
def flatStep (m : Fields) (k : String) (v : JSON) : Option Fields :=
  match (splitDots k).reverse with
  | [] => none
  | lastKey :: revKeys => insertPath revKeys.reverse lastKey v m

/-- Fold of `flat` over the input bindings (Go map iteration order is
modelled by the stored order). -/
def flatAux : List (String × JSON) → Fields → Option Fields
  | [], m => some m
  | (k, v) :: rest, m =>
    match flatStep m k v with
    | none => none
    | some m' => flatAux rest m'

/-- `flat(input)`, with the runtime type-assertion panic surfaced as `none`. -/
def flat (input : List (String × JSON)) : Option Fields :=
  flatAux input Fields.nil

/-- No dotted key's intermediate segment collides with a non-object value:
for every key in the input and every proper prefix `p` of its segment list,
every way of realizing `p` from an input binding (the binding's full segment
list extended by a descent into its value) lands on an object. -/
def collideFreeB (input : List (String × JSON)) : Bool :=
  input.all fun kv =>
    ((splitDots kv.1).dropLast.inits).all fun p =>
      input.all fun kv' =>
        !((splitDots kv'.1).isPrefixOf p) ||
          (match lookupPath kv'.2 (p.drop (splitDots kv'.1).length) with
            | some w => isObjB w
            | none => true)

end JsonFlat

/-! ### Concrete sample inputs used by the witnesses and counterexamples -/

/-- A trivial stand-in for the external `regexp.MatchString` collaborator
(no condition below uses the `"regex"` type). -/
def sampleRx : String → String → Bool := fun _ _ => false

/-- Record `{"a":[{"b":"x"},{"b":"y"}]}`. -/
def recArrObjs : JSON :=
  .obj (.cons "a"
    (.arr (.cons (.obj (.cons "b" (.str "x") .nil))
      (.cons (.obj (.cons "b" (.str "y") .nil)) .nil))) .nil)

/-- Record `{"a":"x"}`. -/
def recFlatA : JSON := .obj (.cons "a" (.str "x") .nil)

/-- Record `{"a":{"b":"x"}}`. -/
def recNested : JSON := .obj (.cons "a" (.obj (.cons "b" (.str "x") .nil)) .nil)

/-- Record `{"a":{"":"x"}}` (an empty-string key under "a"). -/
def recEmptyKey : JSON := .obj (.cons "a" (.obj (.cons "" (.str "x") .nil)) .nil)

/-- Record `{"a":["x"]}`. -/
def recArrStr : JSON := .obj (.cons "a" (.arr (.cons (.str "x") .nil)) .nil)

/-- Selection condition `{type:"match", key:"a.b", values:["y"]}`. -/
def condMatchAB : JsonSelect.Condition := ⟨"match", "a.b", ["y"], false⟩

/-- Selection condition `{type:"exist", key:"a", values:[]}`. -/
def condExistEmpty : JsonSelect.Condition := ⟨"exist", "a", [], false⟩

/-- Global replacement rule x → y (field-name "f"). -/
def ruleGlobal : JsonReplace.Rule := ⟨1, "global", "f", "x", "y", 0, 0, 0⟩

/-- Per-field replacement rule x → y on path "a". -/
def rulePerFieldA : JsonReplace.Rule := ⟨1, "per-field", "a", "x", "y", 0, 0, 0⟩

/-- Timestamp rule on the dotted path "a.b", duration 1000, max-records 10. -/
def ruleTsDotted : JsonReplace.Rule := ⟨1, "timestamp", "a.b", "", "", 1000, 10, 0⟩

/-- Timestamp rule on the single-segment path "t". -/
def ruleTsFlat : JsonReplace.Rule := ⟨1, "timestamp", "t", "", "", 1000, 10, 0⟩

/-- Replay cursor at time 0, index 0, records 10. -/
def replay0 : JsonReplace.Replay := ⟨0, 0, 10⟩

/-- Record `{"role":"admin"}`. -/
def recRoleAdmin : JSON := .obj (.cons "role" (.str "admin") .nil)

/-- Record `{"role":"user"}`. -/
def recRoleUser : JSON := .obj (.cons "role" (.str "user") .nil)

/-- Selection rule position 1 routing role=admin records to "admins". -/
def ruleSelA : JsonSelect.Rule := ⟨1, "admins", [⟨"match", "role", ["admin"], false⟩]⟩

/-- Selection rule position 2 routing records with a role field to "other". -/
def ruleSelB : JsonSelect.Rule := ⟨2, "other", [⟨"exist", "role", ["z"], false⟩]⟩

/-- A rule is satisfied by a record when `processRule` returns true for it
(with its stored conditions as they are). -/
def JsonSelect.ruleSatisfied (rx : String → String → Bool) (v : JSON)
    (r : JsonSelect.Rule) : Prop :=
  (JsonSelect.processRule rx v r).map Prod.fst = some true

/-! ### Helper lemmas -/

theorem getField_setField (k : String) (v : JSON) :
    ∀ (m : Fields) (k' : String),
      getField (setField m k v) k' = if k = k' then some v else getField m k'
  | .nil, k' => by
    by_cases h : k = k' <;> simp [setField, getField, h]
  | .cons k0 w rest, k' => by
    have ih := getField_setField k v rest k'
    by_cases h0 : k0 = k <;> by_cases h1 : k = k' <;>
      simp_all [setField, getField]

namespace JsonReplace

theorem validFrom_take :
    ∀ (t : List Step) (s : Counters) (n : ℕ),
      validFrom s t = true → validFrom s (t.take n) = true
  | [], _, n, _ => by simp [validFrom]
  | _ :: _, _, 0, _ => rfl
  | .assign :: ts, s, n + 1, h =>
    validFrom_take ts (stepRun s .assign) n h
  | .complete :: ts, s, n + 1, h => by
    rw [validFrom] at h
    rw [Bool.and_eq_true] at h
    obtain ⟨h1, h2⟩ := h
    rw [List.take, validFrom, h1, Bool.true_and]
    exact validFrom_take ts (stepRun s .complete) n h2

theorem run_inv :
    ∀ (t : List Step) (s : Counters),
      validFrom s t = true →
      s.processCounter + s.inFlight = s.assignCounter →
      (run s t).processCounter + (run s t).inFlight = (run s t).assignCounter
  | [], _, _, hs => hs
  | .assign :: ts, s, hv, hs => by
    rw [validFrom] at hv
    exact run_inv ts (stepRun s .assign) hv (by simp [stepRun]; omega)
  | .complete :: ts, s, hv, hs => by
    rw [validFrom] at hv
    rw [Bool.and_eq_true] at hv
    obtain ⟨h1, h2⟩ := hv
    have hf : 0 < s.inFlight := of_decide_eq_true h1
    exact run_inv ts (stepRun s .complete) h2 (by simp [stepRun]; omega)

theorem run_assigns :
    ∀ (t : List Step) (s : Counters),
      (run s t).assignCounter = s.assignCounter + countAssigns t
  | [], s => by simp [run, countAssigns]
  | .assign :: ts, s => by
    rw [run, run_assigns ts (stepRun s .assign)]
    simp [stepRun, countAssigns, List.filter]
    omega
  | .complete :: ts, s => by
    rw [run, run_assigns ts (stepRun s .complete)]
    simp [stepRun, countAssigns, List.filter]

end JsonReplace

/-! ### C1 -/

/-- C1: for every valid interleaving of the dispatcher's steps, the processed
counter never exceeds the assigned counter at any point, and if the run ends
with the two counters equal (the success condition of `Exec`'s wait loop),
both equal the number of non-directory files discovered (one `assign` per
discovered file). -/
theorem c1_dispatcher_completion (t : List JsonReplace.Step)
    (hv : JsonReplace.validFrom JsonReplace.initCounters t = true) :
    (∀ n, (JsonReplace.run JsonReplace.initCounters (t.take n)).processCounter ≤
        (JsonReplace.run JsonReplace.initCounters (t.take n)).assignCounter) ∧
    ((JsonReplace.run JsonReplace.initCounters t).processCounter =
        (JsonReplace.run JsonReplace.initCounters t).assignCounter →
      (JsonReplace.run JsonReplace.initCounters t).processCounter =
          JsonReplace.countAssigns t ∧
        (JsonReplace.run JsonReplace.initCounters t).assignCounter =
          JsonReplace.countAssigns t) := by
  constructor
  · intro n
    have hvp := JsonReplace.validFrom_take t JsonReplace.initCounters n hv
    have := JsonReplace.run_inv (t.take n) JsonReplace.initCounters hvp rfl
    omega
  · intro hEq
    have ha := JsonReplace.run_assigns t JsonReplace.initCounters
    have : JsonReplace.initCounters.assignCounter = 0 := rfl
    omega

/-- Witness for C1 at the concrete interleaving
assign, complete, assign, complete. -/
theorem c1_dispatcher_completion_witness :
    JsonReplace.validFrom JsonReplace.initCounters
        [.assign, .complete, .assign, .complete] = true ∧
      (JsonReplace.run JsonReplace.initCounters
          [.assign, .complete, .assign, .complete]).processCounter =
        (JsonReplace.run JsonReplace.initCounters
          [.assign, .complete, .assign, .complete]).assignCounter ∧
      (JsonReplace.run JsonReplace.initCounters
          [.assign, .complete, .assign, .complete]).processCounter =
        JsonReplace.countAssigns [.assign, .complete, .assign, .complete] :=
  ⟨by decide, by decide,
    ((c1_dispatcher_completion [.assign, .complete, .assign, .complete]
      (by decide)).2 (by decide)).1⟩

namespace JsonReplace

theorem int64_intCast (z : ℤ) : int64 ((z : ℚ)) = z := by
  simp [int64, Rat.num_intCast, Rat.den_intCast]

theorem calculateIncrement_div (i d r : ℤ) :
    calculateIncrement i d r = (d : ℚ) / (r : ℚ) := by
  simp only [calculateIncrement]
  ring

theorem advanceReplay_step (t : ℚ) (i : ℤ) :
    advanceReplay 1000 ⟨t, i, 10⟩ = (int64 (t + 100), ⟨t + 100, i + 1, 10⟩) := by
  have h : calculateIncrement i 1000 10 = 100 := by
    rw [calculateIncrement_div]
    norm_num
  simp [advanceReplay, h]

theorem iterAdvance_closed :
    ∀ (n : ℕ) (t : ℚ) (i : ℤ),
      iterAdvance 1000 ⟨t, i, 10⟩ n =
        (int64 (t + 100 * (n + 1)), ⟨t + 100 * (n + 1), i + (n + 1), 10⟩)
  | 0, t, i => by
    rw [iterAdvance, advanceReplay_step]
    norm_num
  | n + 1, t, i => by
    rw [iterAdvance, advanceReplay_step, iterAdvance_closed n (t + 100) (i + 1)]
    have h1 : t + 100 + 100 * ((n : ℚ) + 1) = t + 100 * (((n + 1 : ℕ) : ℚ) + 1) := by
      push_cast
      ring
    have h2 : i + 1 + ((n : ℤ) + 1) = i + (((n + 1 : ℕ) : ℤ) + 1) := by
      push_cast
      ring
    rw [h1, h2]

end JsonReplace

/-! ### C5 -/

/-- C5: for a timestamp rule with duration 1000 and max-records 10 (replay
state starting at integer time t0, index 0, records 10), the n-th call of the
replay advance function yields the integer t0 + 100·(n+1): successive values
are strictly increasing and evenly spaced by exactly 100; in general a call
always increments the sample index by one, and for nonnegative duration and
positive records the virtual time never decreases. -/
theorem c5_timestamp_replay_monotone :
    (∀ (t0 : ℤ) (n : ℕ),
      (JsonReplace.iterAdvance 1000 ⟨(t0 : ℚ), 0, 10⟩ n).1 = t0 + 100 * (n + 1) ∧
      (JsonReplace.iterAdvance 1000 ⟨(t0 : ℚ), 0, 10⟩ (n + 1)).1 =
        (JsonReplace.iterAdvance 1000 ⟨(t0 : ℚ), 0, 10⟩ n).1 + 100 ∧
      (JsonReplace.iterAdvance 1000 ⟨(t0 : ℚ), 0, 10⟩ n).1 <
        (JsonReplace.iterAdvance 1000 ⟨(t0 : ℚ), 0, 10⟩ (n + 1)).1) ∧
    (∀ (d : ℤ) (st : JsonReplace.Replay),
      (JsonReplace.advanceReplay d st).2.index = st.index + 1 ∧
      (0 ≤ d → 0 < st.records →
        st.time ≤ (JsonReplace.advanceReplay d st).2.time)) := by
  constructor
  · intro t0 n
    have hn := JsonReplace.iterAdvance_closed n (t0 : ℚ) 0
    have hsn := JsonReplace.iterAdvance_closed (n + 1) (t0 : ℚ) 0
    have hv : ∀ m : ℕ, ((t0 : ℚ) + 100 * (m + 1)) = ((t0 + 100 * (m + 1) : ℤ) : ℚ) := by
      intro m
      push_cast
      ring
    have e1 : (JsonReplace.iterAdvance 1000 ⟨(t0 : ℚ), 0, 10⟩ n).1 = t0 + 100 * (n + 1) := by
      rw [hn, hv n, JsonReplace.int64_intCast]
    have e2 : (JsonReplace.iterAdvance 1000 ⟨(t0 : ℚ), 0, 10⟩ (n + 1)).1 =
        t0 + 100 * (n + 2) := by
      rw [hsn, hv (n + 1), JsonReplace.int64_intCast]
      push_cast
      ring
    refine ⟨e1, ?_, ?_⟩
    · rw [e1, e2]; ring
    · rw [e1, e2]; omega
  · intro d st
    refine ⟨rfl, fun hd hr => ?_⟩
    have : (0 : ℚ) ≤ JsonReplace.calculateIncrement st.index d st.records := by
      rw [JsonReplace.calculateIncrement_div]
      apply div_nonneg
      · exact_mod_cast hd
      · exact_mod_cast le_of_lt hr
    simp only [JsonReplace.advanceReplay]
    linarith

/-- Witness for C5 at t0 = 0, n = 0, d = 1000, st = (0, 0, 10). -/
theorem c5_timestamp_replay_monotone_witness :
    (JsonReplace.iterAdvance 1000 ⟨((0 : ℤ) : ℚ), 0, 10⟩ 0).1 = 100 ∧
    (JsonReplace.advanceReplay 1000 ⟨((0 : ℤ) : ℚ), 0, 10⟩).2.index = 0 + 1 ∧
    ((0 : ℤ) ≤ 1000) ∧
    ((0 : ℤ) < (⟨((0 : ℤ) : ℚ), 0, 10⟩ : JsonReplace.Replay).records) ∧
    ((⟨((0 : ℤ) : ℚ), 0, 10⟩ : JsonReplace.Replay).time ≤
      (JsonReplace.advanceReplay 1000 ⟨((0 : ℤ) : ℚ), 0, 10⟩).2.time) := by
  refine ⟨?_, ?_, by decide, by decide, ?_⟩
  · have := (c5_timestamp_replay_monotone.1 0 0).1
    norm_num at this
    exact this
  · exact (c5_timestamp_replay_monotone.2 1000 ⟨((0 : ℤ) : ℚ), 0, 10⟩).1
  · exact (c5_timestamp_replay_monotone.2 1000 ⟨((0 : ℤ) : ℚ), 0, 10⟩).2
      (by decide) (by decide)

namespace JsonReplace

mutual
theorem processReplay_unconsumed (r : Rule) (hne : (cutDot r.fieldName).2.1 ≠ "") :
    ∀ (v : JSON) (k : String) (st : Replay), processReplay k v r st = (v, st)
  | .null, _, _ => rfl
  | .bool _, _, _ => rfl
  | .num _, _, _ => rfl
  | .str _, _, _ => rfl
  | .obj m, k, st => by
    simp [processReplay, processReplayMap_unconsumed r hne m st]
  | .arr a, k, st => by
    simp [processReplay, processReplayArray_unconsumed r hne a k st]

theorem processReplayMap_unconsumed (r : Rule) (hne : (cutDot r.fieldName).2.1 ≠ "") :
    ∀ (m : Fields) (st : Replay), processReplayMap m r st = (m, st)
  | .nil, st => by simp [processReplayMap, hne]
  | .cons k v rest, st => by
    simp [processReplayMap, hne, processReplay_unconsumed r hne v k st,
      processReplayMap_unconsumed r hne rest st]

theorem processReplayArray_unconsumed (r : Rule) (hne : (cutDot r.fieldName).2.1 ≠ "") :
    ∀ (a : Elems) (k : String) (st : Replay), processReplayArray a k r st = (a, st)
  | .nil, _, st => rfl
  | .cons v rest, k, st => by
    simp [processReplayArray, processReplay_unconsumed r hne v k st,
      processReplayArray_unconsumed r hne rest k st]
end

end JsonReplace

/-! ### C6 -/

/-- C6 counterexample: for the timestamp rule with dotted field path "a.b" on
the record `{"a":{"b":"x"}}` the code mutates nothing and leaves the replay
cursor untouched, while the spec's per-field-like descent (`specReplay`)
writes int64 of the new virtual time into the addressed leaf; moreover for
the single-segment path "t" on the empty record the code creates the absent
key instead of doing nothing. -/
theorem c6_replay_descent_counterexample :
    JsonReplace.processReplay "" recNested ruleTsDotted replay0 = (recNested, replay0) ∧
    JsonReplace.specReplay recNested ruleTsDotted replay0 =
      (.obj (.cons "a" (.obj (.cons "b" (.num 100) .nil)) .nil), ⟨100, 1, 10⟩) ∧
    (JsonReplace.processReplay "" recNested ruleTsDotted replay0).1 ≠
      (JsonReplace.specReplay recNested ruleTsDotted replay0).1 ∧
    JsonReplace.processReplay "" (.obj .nil) ruleTsFlat replay0 =
      (.obj (.cons "t" (.num 100) .nil), ⟨100, 1, 10⟩) := by
  have h2 : JsonReplace.specReplay recNested ruleTsDotted replay0 =
      (.obj (.cons "a" (.obj (.cons "b" (.num 100) .nil)) .nil), ⟨100, 1, 10⟩) := by
    simp +decide [JsonReplace.specReplay, JsonReplace.specReplayPath, setField, getField,
      JsonReplace.advanceReplay, JsonReplace.calculateIncrement, int64,
      ruleTsDotted, replay0, recNested]
    norm_num
  have h1 : JsonReplace.processReplay "" recNested ruleTsDotted replay0 =
      (recNested, replay0) := by decide
  refine ⟨h1, h2, ?_, ?_⟩
  · rw [h1, h2]
    decide
  · simp +decide [JsonReplace.processReplay, JsonReplace.processReplayMap, setField,
      JsonReplace.advanceReplay, JsonReplace.calculateIncrement, int64,
      ruleTsFlat, replay0]
    norm_num

/-- C6 (amended): the replay descent is not the per-field descent. If the
rule's field name still contains a dot after the first segment (the remaining
suffix is nonempty), the replay walk recurses through all children with the
path never consumed and therefore changes neither the record nor the replay
cursor; only when the field name is dot-free does it advance the cursor and
store int64 of the new virtual time under that name in the current object,
creating the key if absent and overwriting whatever was there. -/
theorem c6_replay_descent_amended (r : JsonReplace.Rule) (st : JsonReplace.Replay) :
    ((cutDot r.fieldName).2.1 ≠ "" →
      ∀ (v : JSON) (k : String), JsonReplace.processReplay k v r st = (v, st)) ∧
    ((cutDot r.fieldName).2.1 = "" →
      ∀ (m : Fields),
        JsonReplace.processReplayMap m r st =
          (setField m (cutDot r.fieldName).1
              (.num ((JsonReplace.advanceReplay r.duration st).1 : ℚ)),
            (JsonReplace.advanceReplay r.duration st).2)) := by
  constructor
  · intro hne v k
    exact JsonReplace.processReplay_unconsumed r hne v k st
  · intro heq m
    rw [JsonReplace.processReplayMap.eq_def]
    simp [heq]

/-- Witness for C6 (amended) at the two concrete rules. -/
theorem c6_replay_descent_amended_witness :
    ((cutDot ruleTsDotted.fieldName).2.1 ≠ "" ∧
      JsonReplace.processReplay "x" (.str "s") ruleTsDotted replay0 = (.str "s", replay0)) ∧
    ((cutDot ruleTsFlat.fieldName).2.1 = "" ∧
      JsonReplace.processReplayMap .nil ruleTsFlat replay0 =
        (setField .nil (cutDot ruleTsFlat.fieldName).1
            (.num ((JsonReplace.advanceReplay ruleTsFlat.duration replay0).1 : ℚ)),
          (JsonReplace.advanceReplay ruleTsFlat.duration replay0).2)) :=
  ⟨⟨by decide, (c6_replay_descent_amended ruleTsDotted replay0).1 (by decide) (.str "s") "x"⟩,
   ⟨by decide, (c6_replay_descent_amended ruleTsFlat replay0).2 (by decide) .nil⟩⟩

/-- Spine induction for `Fields` (association lists), derived from the
mutual recursor with trivial motives on the other two sorts. -/
theorem fieldsInduction (P : Fields → Prop) (hnil : P .nil)
    (hcons : ∀ (k : String) (v : JSON) (rest : Fields), P rest → P (.cons k v rest)) :
    ∀ m, P m :=
  fun m =>
    @Fields.rec (fun _ => True) P (fun _ => True)
      trivial (fun _ => trivial) (fun _ => trivial) (fun _ => trivial)
      (fun _ _ => trivial) (fun _ _ => trivial)
      hnil (fun k v rest _ ih => hcons k v rest ih)
      trivial (fun _ _ _ _ => trivial) m

/-- Spine induction for `Elems`, derived like `fieldsInduction`. -/
theorem elemsInduction (P : Elems → Prop) (hnil : P .nil)
    (hcons : ∀ (v : JSON) (rest : Elems), P rest → P (.cons v rest)) :
    ∀ a, P a :=
  fun a =>
    @Elems.rec (fun _ => True) (fun _ => True) P
      trivial (fun _ => trivial) (fun _ => trivial) (fun _ => trivial)
      (fun _ _ => trivial) (fun _ _ => trivial)
      trivial (fun _ _ _ _ _ => trivial)
      hnil (fun v rest _ ih => hcons v rest ih) a

namespace JsonReplace

theorem processMap_nil (r : Rule) : processMap .nil r = .nil := by
  rw [processMap.eq_def]

theorem processMap_pf_skip (k : String) (v : JSON) (rest : Fields) (r : Rule)
    (hty : r.rtype ≠ "global") (h1 : ¬ k = (cutDot r.fieldName).1) :
    processMap (.cons k v rest) r = .cons k v (processMap rest r) := by
  rw [processMap.eq_def]
  simp [hty, h1]

theorem processMap_pf_str (k : String) (s : String) (rest : Fields) (r : Rule)
    (hty : r.rtype ≠ "global") (h1 : k = (cutDot r.fieldName).1) :
    processMap (.cons k (.str s) rest) r =
      .cons k
        (if (cutDot r.fieldName).2.1 = "" then
          .str (strReplaceAll s r.original r.replacement)
        else .str s)
        rest := by
  rw [processMap.eq_def]
  by_cases h2 : (cutDot r.fieldName).2.1 = "" <;> simp [hty, h1, h2]

theorem processMap_pf_hit (k : String) (v : JSON) (rest : Fields) (r : Rule)
    (hty : r.rtype ≠ "global") (h1 : k = (cutDot r.fieldName).1)
    (hv : isStrB v = false) :
    processMap (.cons k v rest) r =
      .cons k
        (process (cutDot r.fieldName).1 v { r with fieldName := (cutDot r.fieldName).2.1 })
        rest := by
  rw [processMap.eq_def]
  cases v <;> simp_all [isStrB, hty, h1]

theorem processMap_perField_frame (r : Rule) (hty : r.rtype ≠ "global")
    (m : Fields) : ∀ (k' : String), k' ≠ (cutDot r.fieldName).1 →
      getField (processMap m r) k' = getField m k' := by
  induction m using fieldsInduction with
  | hnil => intro k' _; rw [processMap_nil]
  | hcons k v rest ih =>
    intro k' hk
    by_cases h1 : k = (cutDot r.fieldName).1
    · have hkk : ¬ k = k' := fun h => hk (h.symm.trans h1)
      cases hv : isStrB v
      · rw [processMap_pf_hit k v rest r hty h1 hv, getField, getField,
          if_neg hkk, if_neg hkk]
      · obtain ⟨s, rfl⟩ : ∃ s, v = .str s := by
          cases v <;> simp_all [isStrB]
        rw [processMap_pf_str k s rest r hty h1, getField, getField,
          if_neg hkk, if_neg hkk]
    · rw [processMap_pf_skip k v rest r hty h1, getField, getField]
      by_cases h2 : k = k'
      · rw [if_pos h2, if_pos h2]
      · rw [if_neg h2, if_neg h2]
        exact ih k' hk

theorem processMap_perField_absent (r : Rule) (hty : r.rtype ≠ "global")
    (m : Fields) : getField m (cutDot r.fieldName).1 = none → processMap m r = m := by
  induction m using fieldsInduction with
  | hnil => intro _; rw [processMap_nil]
  | hcons k v rest ih =>
    intro h
    rw [getField] at h
    by_cases h1 : k = (cutDot r.fieldName).1
    · rw [if_pos h1] at h
      exact absurd h (by simp)
    · rw [if_neg h1] at h
      rw [processMap_pf_skip k v rest r hty h1, ih h]

theorem processMap_perField_str (r : Rule) (hty : r.rtype ≠ "global")
    (m : Fields) : ∀ (s : String), getField m (cutDot r.fieldName).1 = some (.str s) →
      processMap m r =
        if (cutDot r.fieldName).2.1 = "" then
          setField m (cutDot r.fieldName).1 (.str (strReplaceAll s r.original r.replacement))
        else m := by
  induction m using fieldsInduction with
  | hnil =>
    intro s h
    rw [getField] at h
    exact absurd h (by simp)
  | hcons k v rest ih =>
    intro s h
    rw [getField] at h
    by_cases h1 : k = (cutDot r.fieldName).1
    · rw [if_pos h1] at h
      have hv : v = .str s := by injection h
      subst hv
      rw [processMap_pf_str k s rest r hty h1]
      by_cases h2 : (cutDot r.fieldName).2.1 = ""
      · rw [if_pos h2, if_pos h2]
        simp only [setField]
        rw [if_pos h1]
      · rw [if_neg h2, if_neg h2]
    · rw [if_neg h1] at h
      rw [processMap_pf_skip k v rest r hty h1, ih s h]
      by_cases h2 : (cutDot r.fieldName).2.1 = ""
      · rw [if_pos h2, if_pos h2]
        simp only [setField]
        rw [if_neg h1]
      · rw [if_neg h2, if_neg h2]

end JsonReplace

/-! ### C3 -/

/-- C3: evaluation of the global rule (original "x", replacement "y",
field-name "f") at the failing inputs. On `{"a":["x"]}` the string inside the
array is not replaced at all (the record is returned unchanged), and on the
top-level array `["x"]` the element is substituted with the rule's field-name
"f" instead of its replacement "y"; only a string that is a direct map value
is replaced with "y" as the claim describes. -/
theorem c3_global_replacement_eval :
    JsonReplace.process "" recArrStr ruleGlobal = recArrStr ∧
    JsonReplace.process "" (.arr (.cons (.str "x") .nil)) ruleGlobal =
      .arr (.cons (.str "f") .nil) ∧
    JsonReplace.process "" recFlatA ruleGlobal =
      .obj (.cons "a" (.str "y") .nil) :=
  ⟨by decide, by decide, by decide⟩

/-! ### C7 -/

/-- C7 counterexample: the per-field rule with path "a" (original "x",
replacement "y") applied to `{"a":{"":"x"}}` — the path resolves to a
compound value, which the claim says is a silent no-op — mutates the record:
traversal continues with the empty remaining path into the child object and
rewrites its empty-string key. -/
theorem c7_per_field_frame_counterexample :
    JsonReplace.process "" recEmptyKey rulePerFieldA =
      .obj (.cons "a" (.obj (.cons "" (.str "y") .nil)) .nil) ∧
    JsonReplace.process "" recEmptyKey rulePerFieldA ≠ recEmptyKey :=
  ⟨by decide, by decide⟩

/-- C7 (amended): a per-field rule can only ever modify the entry at the
first segment of its field path — every other top-level field keeps its
value; if the first segment is absent the record is returned unchanged; and
if it holds a string, the string is substituted (with the rule's replacement)
exactly when the path is fully consumed, otherwise nothing changes. However,
when the path resolves to a compound value the record is not necessarily
unchanged: traversal continues into it with the remaining (possibly empty)
path, so a child bound to the empty-string key can be rewritten. -/
theorem c7_per_field_frame_amended (r : JsonReplace.Rule) (m : Fields)
    (hty : r.rtype = "per-field") :
    (∀ k', k' ≠ (cutDot r.fieldName).1 →
      getField (JsonReplace.processMap m r) k' = getField m k') ∧
    (getField m (cutDot r.fieldName).1 = none → JsonReplace.processMap m r = m) ∧
    (∀ s, getField m (cutDot r.fieldName).1 = some (.str s) →
      JsonReplace.processMap m r =
        if (cutDot r.fieldName).2.1 = "" then
          setField m (cutDot r.fieldName).1
            (.str (strReplaceAll s r.original r.replacement))
        else m) := by
  have hne : r.rtype ≠ "global" := by rw [hty]; decide
  exact ⟨fun k' hk => JsonReplace.processMap_perField_frame r hne m k' hk,
    fun h => JsonReplace.processMap_perField_absent r hne m h,
    fun s h => JsonReplace.processMap_perField_str r hne m s h⟩

/-- Witness for C7 (amended) on the object `{"a":"x"}` (and `{"b":"x"}` for
the absent case). -/
theorem c7_per_field_frame_amended_witness :
    rulePerFieldA.rtype = "per-field" ∧
    getField (JsonReplace.processMap (.cons "a" (.str "x") .nil) rulePerFieldA) "z" =
      getField (.cons "a" (.str "x") .nil) "z" ∧
    JsonReplace.processMap (.cons "b" (.str "x") .nil) rulePerFieldA =
      .cons "b" (.str "x") .nil ∧
    JsonReplace.processMap (.cons "a" (.str "x") .nil) rulePerFieldA =
      (if (cutDot rulePerFieldA.fieldName).2.1 = "" then
        setField (.cons "a" (.str "x") .nil) (cutDot rulePerFieldA.fieldName).1
          (.str (strReplaceAll "x" rulePerFieldA.original rulePerFieldA.replacement))
      else .cons "a" (.str "x") .nil) :=
  ⟨rfl,
   (c7_per_field_frame_amended rulePerFieldA (.cons "a" (.str "x") .nil) rfl).1 "z"
     (by decide),
   (c7_per_field_frame_amended rulePerFieldA (.cons "b" (.str "x") .nil) rfl).2.1
     (by decide),
   (c7_per_field_frame_amended rulePerFieldA (.cons "a" (.str "x") .nil) rfl).2.2 "x"
     (by decide)⟩

namespace JsonSelect

theorem selMap_skip (rx : String → String → Bool) (k : String) (w : JSON)
    (rest : Fields) (c : Condition) (h1 : ¬ k = (cutDot c.key).1) :
    processMap rx (.cons k w rest) c = processMap rx rest c := by
  rw [processMap.eq_def]
  simp [h1]

theorem selMap_descend (rx : String → String → Bool) (c : Condition) (v : JSON)
    (hv : isStrB v = false) :
    ∀ (m : Fields), getField m (cutDot c.key).1 = some v →
      processMap rx m c =
        process rx (cutDot c.key).1 v { c with key := (cutDot c.key).2.1 } := by
  intro m
  induction m using fieldsInduction with
  | hnil =>
    intro h
    rw [getField] at h
    exact absurd h (by simp)
  | hcons k w rest ih =>
    intro h
    rw [getField] at h
    by_cases h1 : k = (cutDot c.key).1
    · rw [if_pos h1] at h
      obtain rfl : w = v := by injection h
      rw [processMap.eq_def]
      cases w <;> simp_all [isStrB, h1]
    · rw [if_neg h1] at h
      rw [selMap_skip rx k w rest c h1]
      exact ih h

theorem selArr_first_compound (rx : String → String → Bool) (k : String)
    (c : Condition) (v : JSON) (rest : Elems) (hv : isStrB v = false) :
    processArray rx (.cons v rest) k c = process rx k v c := by
  rw [processArray.eq_def]
  cases v <;> simp_all [isStrB]

theorem selArr_skip_str (rx : String → String → Bool) (k : String)
    (c : Condition) (s : String) (rest : Elems) (hk : k ≠ "") :
    processArray rx (.cons (.str s) rest) k c = processArray rx rest k c := by
  rw [processArray.eq_def]
  simp [hk]

end JsonSelect

/-! ### C9 -/

/-- C9 counterexample: for the exist condition with key "a" and an empty
values list, evaluated on `{"a":"x"}` (the path resolves to the string leaf
"x"), the underlying predicate before the exclude inversion is false, not
true: the Go loop over `values` never runs, so `test` returns false. -/
theorem c9_exist_empty_values_counterexample :
    JsonSelect.process sampleRx "" recFlatA condExistEmpty = some (false, condExistEmpty) ∧
    condExistEmpty.ctype = "exist" ∧
    condExistEmpty.values = [] ∧
    asStr (lookupPath recFlatA ["a"]) = some "x" :=
  ⟨by decide, rfl, rfl, by decide⟩

/-- C9 (amended): for a condition of type exist, the underlying test is true
exactly when the values list is nonempty (its contents are otherwise
ignored); with an empty values list the evaluation loop never runs and the
test yields false. -/
theorem c9_exist_amended (rx : String → String → Bool) (v : String)
    (c : JsonSelect.Condition) (hty : c.ctype = "exist") :
    (c.values ≠ [] → JsonSelect.test rx v c = some true) ∧
    (c.values = [] → JsonSelect.test rx v c = some false) := by
  constructor
  · intro hne
    match hv : c.values with
    | [] => exact absurd hv hne
    | x :: xs =>
      rw [JsonSelect.test, hty, hv, JsonSelect.testValues]
  · intro he
    rw [JsonSelect.test, he, JsonSelect.testValues]

/-- Witness for C9 (amended) with values ["w"] and with values []. -/
theorem c9_exist_amended_witness :
    (({ condExistEmpty with values := ["w"] } : JsonSelect.Condition).ctype = "exist" ∧
      ({ condExistEmpty with values := ["w"] } : JsonSelect.Condition).values ≠ [] ∧
      JsonSelect.test sampleRx "x" { condExistEmpty with values := ["w"] } = some true) ∧
    (condExistEmpty.ctype = "exist" ∧
      condExistEmpty.values = [] ∧
      JsonSelect.test sampleRx "x" condExistEmpty = some false) :=
  ⟨⟨rfl, by decide,
    (c9_exist_amended sampleRx "x" { condExistEmpty with values := ["w"] } rfl).1
      (by decide)⟩,
   ⟨rfl, rfl, (c9_exist_amended sampleRx "x" condExistEmpty rfl).2 rfl⟩⟩

/-! ### C8 -/

/-- C8 counterexample: the record `{"a":[{"b":"x"},{"b":"y"}]}` with the
condition key "a.b", values ["y"], type match does NOT match: evaluation
returns on the first array element (whose "b" is "x"), so the underlying
predicate is false, contradicting the claimed any-element semantics. -/
theorem c8_array_any_element_counterexample :
    JsonSelect.processCondition sampleRx recArrObjs condMatchAB =
      some (false, { condMatchAB with key := "b" }) := by decide

/-- C8 (amended): a condition applied to an array is decided by the first
element that is not a skipped string: a string element is tested only when
the remaining key prefix is empty (otherwise the loop skips it), and the
first non-string element determines the result of the whole array (the later
elements are never examined). In particular the example record matches with
values ["x"] (the first element decides) and not with ["y"]. -/
theorem c8_array_first_element_amended (rx : String → String → Bool)
    (k : String) (c : JsonSelect.Condition) :
    (∀ (v : JSON) (rest : Elems), isStrB v = false →
      JsonSelect.processArray rx (.cons v rest) k c = JsonSelect.process rx k v c) ∧
    (∀ (s : String) (rest : Elems), k ≠ "" →
      JsonSelect.processArray rx (.cons (.str s) rest) k c =
        JsonSelect.processArray rx rest k c) ∧
    JsonSelect.processCondition sampleRx recArrObjs { condMatchAB with values := ["x"] } =
      some (true, { condMatchAB with key := "b", values := ["x"] }) :=
  ⟨fun v rest hv => JsonSelect.selArr_first_compound rx k c v rest hv,
   fun s rest hk => JsonSelect.selArr_skip_str rx k c s rest hk,
   by decide⟩

/-- Witness for C8 (amended) at a concrete array: the object element decides
and a string element under a nonempty key prefix is skipped. -/
theorem c8_array_first_element_amended_witness :
    isStrB (.obj (.cons "b" (.str "x") .nil)) = false ∧
    JsonSelect.processArray sampleRx
        (.cons (.obj (.cons "b" (.str "x") .nil)) .nil) "a" condMatchAB =
      JsonSelect.process sampleRx "a" (.obj (.cons "b" (.str "x") .nil)) condMatchAB ∧
    ("a" : String) ≠ "" ∧
    JsonSelect.processArray sampleRx (.cons (.str "s") .nil) "a" condMatchAB =
      JsonSelect.processArray sampleRx .nil "a" condMatchAB :=
  ⟨by decide,
   (c8_array_first_element_amended sampleRx "a" condMatchAB).1
     (.obj (.cons "b" (.str "x") .nil)) .nil (by decide),
   by decide,
   (c8_array_first_element_amended sampleRx "a" condMatchAB).2.1 "s" .nil (by decide)⟩

/-! ### C4 -/

/-- C4 counterexample: evaluating the condition with key "a.b" (type match,
values ["x"]) against `{"a":{"b":"x"}}` succeeds but returns the condition
with its stored key overwritten to the remaining suffix "b" — the rule's
stored path definition is changed by the evaluation. -/
theorem c4_condition_key_mutation_counterexample :
    JsonSelect.processCondition sampleRx recNested { condMatchAB with values := ["x"] } =
      some (true, { condMatchAB with key := "b", values := ["x"] }) ∧
    ({ condMatchAB with key := "b", values := ["x"] } : JsonSelect.Condition).key ≠
      ({ condMatchAB with values := ["x"] } : JsonSelect.Condition).key :=
  ⟨by decide, by decide⟩

/-- C4 (amended): condition evaluation mutates the rule's stored path:
whenever the first path segment is found and holds a non-string value, the
traversal overwrites the condition's key with the remaining suffix before
descending, and the mutated condition is what the rule keeps. Consequently
re-evaluating the same rule against the very same record can flip the
result: key "a.b" on `{"a":{"b":"x"}}` evaluates true and leaves key "b",
and the immediate re-evaluation returns false. -/
theorem c4_condition_key_mutation_amended :
    (∀ (rx : String → String → Bool) (c : JsonSelect.Condition) (v : JSON) (m : Fields),
      isStrB v = false → getField m (cutDot c.key).1 = some v →
      JsonSelect.processMap rx m c =
        JsonSelect.process rx (cutDot c.key).1 v { c with key := (cutDot c.key).2.1 }) ∧
    JsonSelect.processCondition sampleRx recNested { condMatchAB with values := ["x"] } =
      some (true, { condMatchAB with key := "b", values := ["x"] }) ∧
    JsonSelect.processCondition sampleRx recNested
        { condMatchAB with key := "b", values := ["x"] } =
      some (false, { condMatchAB with key := "b", values := ["x"] }) :=
  ⟨fun rx c v m hv h => JsonSelect.selMap_descend rx c v hv m h,
   by decide, by decide⟩

/-- Witness for C4 (amended) at the record `{"a":{"b":"x"}}`. -/
theorem c4_condition_key_mutation_amended_witness :
    isStrB (.obj (.cons "b" (.str "x") .nil)) = false ∧
    getField (.cons "a" (.obj (.cons "b" (.str "x") .nil)) .nil)
        (cutDot condMatchAB.key).1 = some (.obj (.cons "b" (.str "x") .nil)) ∧
    JsonSelect.processMap sampleRx
        (.cons "a" (.obj (.cons "b" (.str "x") .nil)) .nil) condMatchAB =
      JsonSelect.process sampleRx (cutDot condMatchAB.key).1
        (.obj (.cons "b" (.str "x") .nil))
        { condMatchAB with key := (cutDot condMatchAB.key).2.1 } :=
  ⟨by decide, by decide,
   c4_condition_key_mutation_amended.1 sampleRx condMatchAB
     (.obj (.cons "b" (.str "x") .nil))
     (.cons "a" (.obj (.cons "b" (.str "x") .nil)) .nil)
     (by decide) (by decide)⟩

namespace JsonSelect

theorem processRule_keeps (rx : String → String → Bool) (v : JSON) (r : Rule)
    (b : Bool) (r' : Rule) (h : processRule rx v r = some (b, r')) :
    r'.output = r.output ∧ r'.position = r.position := by
  rw [processRule.eq_def] at h
  split at h
  · exact absurd h (by simp)
  · rename_i b2 cs heq
    simp only [Option.some.injEq, Prod.mk.injEq] at h
    obtain ⟨-, h2⟩ := h
    rw [← h2]
    exact ⟨rfl, rfl⟩

theorem handleJSON_cons_true (rx : String → String → Bool) (v : JSON)
    (r : Rule) (t : List Rule) (r' : Rule)
    (hr : processRule rx v r = some (true, r')) :
    handleJSON rx v (r :: t) = some (r'.output, r' :: t) := by
  rw [handleJSON.eq_def]
  simp [hr]

theorem handleJSON_cons_false_none (rx : String → String → Bool) (v : JSON)
    (r : Rule) (t : List Rule) (r' : Rule)
    (hr : processRule rx v r = some (false, r'))
    (hrec : handleJSON rx v t = none) :
    handleJSON rx v (r :: t) = none := by
  rw [handleJSON.eq_def]
  simp [hr, hrec]

theorem handleJSON_cons_false_some (rx : String → String → Bool) (v : JSON)
    (r : Rule) (t : List Rule) (r' : Rule) (out : String) (rest' : List Rule)
    (hr : processRule rx v r = some (false, r'))
    (hrec : handleJSON rx v t = some (out, rest')) :
    handleJSON rx v (r :: t) = some (out, r' :: rest') := by
  rw [handleJSON.eq_def]
  simp [hr, hrec]

theorem handleJSON_cons_fatal (rx : String → String → Bool) (v : JSON)
    (r : Rule) (t : List Rule) (hr : processRule rx v r = none) :
    handleJSON rx v (r :: t) = none := by
  rw [handleJSON.eq_def]
  simp [hr]

theorem handleJSON_first_satisfied (rx : String → String → Bool) (v : JSON) :
    ∀ (l : List Rule), l.Pairwise (fun a b => a.position ≤ b.position) →
      ∀ (A : Rule), A ∈ l → ruleSatisfied rx v A →
      ∀ (out : String) (rest : List Rule), handleJSON rx v l = some (out, rest) →
      ∃ C, C ∈ l ∧ ruleSatisfied rx v C ∧ C.position ≤ A.position ∧ out = C.output := by
  intro l
  induction l with
  | nil =>
    intro _ A hA
    exact absurd hA (List.not_mem_nil A)
  | cons r t ih =>
    intro hp A hA hsat out rest hrun
    cases hr : processRule rx v r with
    | none =>
      rw [handleJSON_cons_fatal rx v r t hr] at hrun
      exact absurd hrun (by simp)
    | some p =>
      obtain ⟨b, r'⟩ := p
      cases b with
      | true =>
        rw [handleJSON_cons_true rx v r t r' hr] at hrun
        simp only [Option.some.injEq, Prod.mk.injEq] at hrun
        refine ⟨r, List.mem_cons_self r t, ?_, ?_, ?_⟩
        · rw [ruleSatisfied, hr]
          rfl
        · rcases List.mem_cons.mp hA with rfl | hAt
          · exact le_refl _
          · exact (List.pairwise_cons.mp hp).1 A hAt
        · rw [← hrun.1, (processRule_keeps rx v r true r' hr).1]
      | false =>
        have hAr : A ≠ r := by
          intro he
          subst he
          rw [ruleSatisfied, hr] at hsat
          exact absurd hsat (by simp)
        have hAt : A ∈ t := (List.mem_cons.mp hA).resolve_left hAr
        cases hrec : handleJSON rx v t with
        | none =>
          rw [handleJSON_cons_false_none rx v r t r' hr hrec] at hrun
          exact absurd hrun (by simp)
        | some q =>
          obtain ⟨out2, rest2⟩ := q
          rw [handleJSON_cons_false_some rx v r t r' out2 rest2 hr hrec] at hrun
          simp only [Option.some.injEq, Prod.mk.injEq] at hrun
          obtain ⟨C, hC, hCsat, hCpos, hCout⟩ :=
            ih (List.pairwise_cons.mp hp).2 A hAt hsat out2 rest2 hrec
          exact ⟨C, List.mem_cons_of_mem r hC, hCsat, hCpos, by rw [← hrun.1, hCout]⟩

theorem handleJSON_default_label (rx : String → String → Bool) (v : JSON) :
    ∀ (l : List Rule), (∀ r ∈ l, (processRule rx v r).map Prod.fst = some false) →
      ∃ rest, handleJSON rx v l = some ("default", rest) := by
  intro l
  induction l with
  | nil => exact fun _ => ⟨[], rfl⟩
  | cons r t ih =>
    intro h
    have hr := h r (List.mem_cons_self r t)
    cases hp : processRule rx v r with
    | none =>
      rw [hp] at hr
      exact absurd hr (by simp)
    | some p =>
      obtain ⟨b, r'⟩ := p
      rw [hp] at hr
      simp only [Option.map_some', Option.some.injEq] at hr
      subst hr
      obtain ⟨rest, hrest⟩ := ih (fun r2 h2 => h r2 (List.mem_cons_of_mem r h2))
      exact ⟨r' :: rest, handleJSON_cons_false_some rx v r t r' "default" rest hp hrest⟩

theorem sortRules_pairwise (rules : List Rule) :
    (sortRules rules).Pairwise (fun a b => a.position ≤ b.position) := by
  haveI : IsTotal Rule (fun a b => a.position ≤ b.position) :=
    ⟨fun a b => Int.le_total a.position b.position⟩
  haveI : IsTrans Rule (fun a b => a.position ≤ b.position) :=
    ⟨fun a b c h1 h2 => le_trans h1 h2⟩
  unfold sortRules
  exact List.sorted_insertionSort (fun a b => a.position ≤ b.position) rules

theorem sortRules_perm (rules : List Rule) : (sortRules rules).Perm rules := by
  unfold sortRules
  exact List.perm_insertionSort (fun a b => a.position ≤ b.position) rules

end JsonSelect

/-! ### C2 -/

/-- C2: for every record and rule list, with the rules sorted by ascending
position as `NewJSONSelect` does: if rules A and B both appear in the list,
A's position is strictly lower than B's, A is satisfied by the record, and
the dispatch loop returns a label, then that label is the output of a
satisfied rule whose position is at most A's (and in particular strictly
below B's, so the record never goes to B); and if no rule in the list is
satisfied the returned label is the reserved "default". -/
theorem c2_selection_dispatch_order (rx : String → String → Bool)
    (rules : List JsonSelect.Rule) (v : JSON) :
    (∀ (A B : JsonSelect.Rule), A ∈ rules → B ∈ rules →
      A.position < B.position → JsonSelect.ruleSatisfied rx v A →
      ∀ (out : String) (rest : List JsonSelect.Rule),
        JsonSelect.handleJSON rx v (JsonSelect.sortRules rules) = some (out, rest) →
        ∃ C, C ∈ rules ∧ JsonSelect.ruleSatisfied rx v C ∧
          C.position ≤ A.position ∧ C.position < B.position ∧ out = C.output) ∧
    ((∀ r ∈ rules, (JsonSelect.processRule rx v r).map Prod.fst = some false) →
      ∃ rest,
        JsonSelect.handleJSON rx v (JsonSelect.sortRules rules) =
          some ("default", rest)) := by
  constructor
  · intro A B hA hB hpos hsat out rest hrun
    have hA' : A ∈ JsonSelect.sortRules rules :=
      ((JsonSelect.sortRules_perm rules).mem_iff).mpr hA
    obtain ⟨C, hC, hCsat, hCpos, hCout⟩ :=
      JsonSelect.handleJSON_first_satisfied rx v (JsonSelect.sortRules rules)
        (JsonSelect.sortRules_pairwise rules) A hA' hsat out rest hrun
    exact ⟨C, ((JsonSelect.sortRules_perm rules).mem_iff).mp hC, hCsat, hCpos,
      lt_of_le_of_lt hCpos hpos, hCout⟩
  · intro hall
    exact JsonSelect.handleJSON_default_label rx v (JsonSelect.sortRules rules)
      (fun r hr => hall r (((JsonSelect.sortRules_perm rules).mem_iff).mp hr))

/-- Witness for C2 with the rules (position 2, "other") and (position 1,
"admins") on `{"role":"admin"}` (both satisfied), and with the single admins
rule on `{"role":"user"}` (not satisfied). -/
theorem c2_selection_dispatch_order_witness :
    ruleSelA ∈ [ruleSelB, ruleSelA] ∧
    ruleSelB ∈ [ruleSelB, ruleSelA] ∧
    ruleSelA.position < ruleSelB.position ∧
    JsonSelect.ruleSatisfied sampleRx recRoleAdmin ruleSelA ∧
    JsonSelect.handleJSON sampleRx recRoleAdmin
        (JsonSelect.sortRules [ruleSelB, ruleSelA]) =
      some ("admins", [ruleSelA, ruleSelB]) ∧
    (∃ C, C ∈ [ruleSelB, ruleSelA] ∧ JsonSelect.ruleSatisfied sampleRx recRoleAdmin C ∧
      C.position ≤ ruleSelA.position ∧ C.position < ruleSelB.position ∧
      "admins" = C.output) ∧
    (∀ r ∈ [ruleSelA],
      (JsonSelect.processRule sampleRx recRoleUser r).map Prod.fst = some false) ∧
    (∃ rest,
      JsonSelect.handleJSON sampleRx recRoleUser
          (JsonSelect.sortRules [ruleSelA]) = some ("default", rest)) :=
  ⟨by decide, by decide, by decide,
   by unfold JsonSelect.ruleSatisfied; decide,
   by decide,
   (c2_selection_dispatch_order sampleRx [ruleSelB, ruleSelA] recRoleAdmin).1
     ruleSelA ruleSelB (by decide) (by decide) (by decide)
     (by unfold JsonSelect.ruleSatisfied; decide)
     "admins" [ruleSelA, ruleSelB] (by decide),
   by decide,
   (c2_selection_dispatch_order sampleRx [ruleSelA] recRoleUser).2
     (by decide)⟩

theorem splitCh_ne_nil : ∀ (l : List Char), splitCh l ≠ []
  | [] => by simp [splitCh]
  | c :: rest => by
    rw [splitCh]
    by_cases h : c = '.'
    · simp [h]
    · rw [if_neg h]
      cases hs : splitCh rest with
      | nil => exact absurd hs (splitCh_ne_nil rest)
      | cons g gs => simp

theorem splitDots_ne_nil (s : String) : splitDots s ≠ [] := by
  rw [splitDots]
  intro h
  exact splitCh_ne_nil s.data (List.map_eq_nil_iff.mp h)

theorem lookupPath_obj_nil (M : Fields) : lookupPath (.obj M) [] = some (.obj M) := rfl

theorem lookupPath_cons_some (M : Fields) (a : String) (as : List String) (w : JSON)
    (h : getField M a = some w) :
    lookupPath (.obj M) (a :: as) = lookupPath w as := by
  simp [lookupPath, h]

theorem lookupPath_cons_none (M : Fields) (a : String) (as : List String)
    (h : getField M a = none) :
    lookupPath (.obj M) (a :: as) = none := by
  simp [lookupPath, h]

namespace JsonFlat

theorem insertPath_nil_eq (lastKey : String) (v : JSON) (m : Fields) :
    insertPath [] lastKey v m = some (setField m lastKey v) := rfl

theorem insertPath_cons_none_eq (key : String) (rest : List String) (lastKey : String)
    (v : JSON) (m : Fields) (hg : getField m key = none) :
    insertPath (key :: rest) lastKey v m =
      (insertPath rest lastKey v Fields.nil).map (fun fs => setField m key (.obj fs)) := by
  cases hrec : insertPath rest lastKey v Fields.nil <;> simp [insertPath, hg, hrec]

theorem insertPath_cons_obj_eq (key : String) (rest : List String) (lastKey : String)
    (v : JSON) (m : Fields) (fs : Fields) (hg : getField m key = some (.obj fs)) :
    insertPath (key :: rest) lastKey v m =
      (insertPath rest lastKey v fs).map (fun fs' => setField m key (.obj fs')) := by
  cases hrec : insertPath rest lastKey v fs <;> simp [insertPath, hg, hrec]

theorem insertPath_cons_bad (key : String) (rest : List String) (lastKey : String)
    (v : JSON) (m : Fields) (w : JSON) (hg : getField m key = some w)
    (hn : isObjB w = false) :
    insertPath (key :: rest) lastKey v m = none := by
  cases w <;> simp_all [insertPath, isObjB]

theorem insertPath_isSome :
    ∀ (keys : List String) (lastKey : String) (v : JSON) (m : Fields),
      (∀ (i : ℕ), i < keys.length →
        ∀ w, lookupPath (.obj m) (keys.take (i + 1)) = some w → isObjB w = true) →
      (insertPath keys lastKey v m).isSome = true
  | [], _, _, _, _ => rfl
  | key :: rest, lastKey, v, m, h => by
    cases hg : getField m key with
    | none =>
      have hnil : ∀ (i : ℕ), i < rest.length →
          ∀ w, lookupPath (.obj Fields.nil) (rest.take (i + 1)) = some w →
            isObjB w = true := by
        intro i hi w hw
        cases hr : rest.take (i + 1) with
        | nil =>
          rw [hr, lookupPath_obj_nil] at hw
          injection hw with hw'
          rw [← hw']
          rfl
        | cons a as =>
          rw [hr, lookupPath_cons_none Fields.nil a as rfl] at hw
          exact absurd hw (by simp)
      obtain ⟨fs, hfs⟩ :=
        Option.isSome_iff_exists.mp (insertPath_isSome rest lastKey v Fields.nil hnil)
      rw [insertPath_cons_none_eq key rest lastKey v m hg, hfs]
      rfl
    | some w =>
      have hw : isObjB w = true := by
        refine h 0 (by simp) w ?_
        rw [List.take, List.take, lookupPath_cons_some m key [] w hg]
        rfl
      obtain ⟨fs, rfl⟩ : ∃ fs, w = .obj fs := by
        cases w <;> simp_all [isObjB]
      have hfs : ∀ (i : ℕ), i < rest.length →
          ∀ u, lookupPath (.obj fs) (rest.take (i + 1)) = some u → isObjB u = true := by
        intro i hi u hu
        refine h (i + 1) (by simpa using Nat.succ_lt_succ hi) u ?_
        rw [List.take_succ_cons, lookupPath_cons_some m key _ _ hg]
        exact hu
      obtain ⟨fs', hfs'⟩ :=
        Option.isSome_iff_exists.mp (insertPath_isSome rest lastKey v fs hfs)
      rw [insertPath_cons_obj_eq key rest lastKey v m fs hg, hfs']
      rfl

theorem insertPath_lookup :
    ∀ (keys : List String) (lastKey : String) (v : JSON) (m m' : Fields),
      insertPath keys lastKey v m = some m' →
      ∀ (p : List String) (w : JSON),
        lookupPath (.obj m') p = some w → isObjB w = false →
        lookupPath (.obj m) p = some w ∨
          ∃ q, p = keys ++ lastKey :: q ∧ lookupPath v q = some w
  | [], lastKey, v, m, m', hins, p, w, hw, hnw => by
    rw [insertPath_nil_eq] at hins
    injection hins with hins
    subst hins
    cases p with
    | nil =>
      rw [lookupPath_obj_nil] at hw
      injection hw with hw'
      rw [← hw'] at hnw
      exact absurd hnw (by simp [isObjB])
    | cons a as =>
      by_cases ha : lastKey = a
      · right
        refine ⟨as, by rw [ha]; rfl, ?_⟩
        have hg : getField (setField m lastKey v) a = some v := by
          rw [getField_setField, if_pos ha]
        rw [lookupPath_cons_some _ a as v hg] at hw
        exact hw
      · left
        have hg : getField (setField m lastKey v) a = getField m a := by
          rw [getField_setField, if_neg ha]
        cases hga : getField m a with
        | none =>
          rw [lookupPath_cons_none _ a as (hg.trans hga)] at hw
          exact absurd hw (by simp)
        | some u =>
          rw [lookupPath_cons_some _ a as u (hg.trans hga)] at hw
          rw [lookupPath_cons_some m a as u hga]
          exact hw
  | key :: rest, lastKey, v, m, m', hins, p, w, hw, hnw => by
    cases hg : getField m key with
    | none =>
      rw [insertPath_cons_none_eq key rest lastKey v m hg] at hins
      cases hrec : insertPath rest lastKey v Fields.nil with
      | none =>
        rw [hrec] at hins
        exact absurd hins (by simp)
      | some fs' =>
        rw [hrec] at hins
        simp only [Option.map_some', Option.some.injEq] at hins
        subst hins
        cases p with
        | nil =>
          rw [lookupPath_obj_nil] at hw
          injection hw with hw'
          rw [← hw'] at hnw
          exact absurd hnw (by simp [isObjB])
        | cons a as =>
          by_cases ha : key = a
          · have hga : getField (setField m key (.obj fs')) a = some (.obj fs') := by
              rw [getField_setField, if_pos ha]
            rw [lookupPath_cons_some _ a as _ hga] at hw
            rcases insertPath_lookup rest lastKey v Fields.nil fs' hrec as w hw hnw with
              hold | ⟨q, hq, hlq⟩
            · cases as with
              | nil =>
                rw [lookupPath_obj_nil] at hold
                injection hold with hw'
                rw [← hw'] at hnw
                exact absurd hnw (by simp [isObjB])
              | cons b bs =>
                rw [lookupPath_cons_none Fields.nil b bs rfl] at hold
                exact absurd hold (by simp)
            · right
              exact ⟨q, by rw [← ha, hq]; rfl, hlq⟩
          · have hga : getField (setField m key (.obj fs')) a = getField m a := by
              rw [getField_setField, if_neg ha]
            left
            cases hma : getField m a with
            | none =>
              rw [lookupPath_cons_none _ a as (hga.trans hma)] at hw
              exact absurd hw (by simp)
            | some u =>
              rw [lookupPath_cons_some _ a as u (hga.trans hma)] at hw
              rw [lookupPath_cons_some m a as u hma]
              exact hw
    | some w0 =>
      cases hobj : isObjB w0 with
      | false =>
        rw [insertPath_cons_bad key rest lastKey v m w0 hg hobj] at hins
        exact absurd hins (by simp)
      | true =>
        obtain ⟨fs, rfl⟩ : ∃ fs, w0 = .obj fs := by
          cases w0 <;> simp_all [isObjB]
        rw [insertPath_cons_obj_eq key rest lastKey v m fs hg] at hins
        cases hrec : insertPath rest lastKey v fs with
        | none =>
          rw [hrec] at hins
          exact absurd hins (by simp)
        | some fs' =>
          rw [hrec] at hins
          simp only [Option.map_some', Option.some.injEq] at hins
          subst hins
          cases p with
          | nil =>
            rw [lookupPath_obj_nil] at hw
            injection hw with hw'
            rw [← hw'] at hnw
            exact absurd hnw (by simp [isObjB])
          | cons a as =>
            by_cases ha : key = a
            · have hga : getField (setField m key (.obj fs')) a = some (.obj fs') := by
                rw [getField_setField, if_pos ha]
              rw [lookupPath_cons_some _ a as _ hga] at hw
              rcases insertPath_lookup rest lastKey v fs fs' hrec as w hw hnw with
                hold | ⟨q, hq, hlq⟩
              · left
                rw [← ha]
                rw [lookupPath_cons_some m key as _ hg]
                exact hold
              · right
                exact ⟨q, by rw [← ha, hq]; rfl, hlq⟩
            · have hga : getField (setField m key (.obj fs')) a = getField m a := by
                rw [getField_setField, if_neg ha]
              left
              cases hma : getField m a with
              | none =>
                rw [lookupPath_cons_none _ a as (hga.trans hma)] at hw
                exact absurd hw (by simp)
              | some u =>
                rw [lookupPath_cons_some _ a as u (hga.trans hma)] at hw
                rw [lookupPath_cons_some m a as u hma]
                exact hw

end JsonFlat

namespace JsonFlat

theorem flatStep_eq (m : Fields) (k : String) (v : JSON) (lastKey : String)
    (revKeys : List String) (hsegs : (splitDots k).reverse = lastKey :: revKeys) :
    flatStep m k v = insertPath revKeys.reverse lastKey v m := by
  simp [flatStep, hsegs]

theorem flatAux_cons_eq (rest : List (String × JSON)) (m : Fields) (k : String)
    (v : JSON) (m2 : Fields) (hstep : flatStep m k v = some m2) :
    flatAux ((k, v) :: rest) m = flatAux rest m2 := by
  simp [flatAux, hstep]

theorem collideFree_spec (input : List (String × JSON))
    (hcf : collideFreeB input = true)
    (kv : String × JSON) (hkv : kv ∈ input) (p : List String)
    (hp : p ∈ (splitDots kv.1).dropLast.inits)
    (kv' : String × JSON) (hkv' : kv' ∈ input)
    (q : List String) (hq : p = splitDots kv'.1 ++ q)
    (w : JSON) (hl : lookupPath kv'.2 q = some w) : isObjB w = true := by
  have h1 := List.all_eq_true.mp hcf kv hkv
  have h2 := List.all_eq_true.mp h1 p hp
  have h3 := List.all_eq_true.mp h2 kv' hkv'
  rw [Bool.or_eq_true] at h3
  rcases h3 with h3 | h3
  · rw [Bool.not_eq_true'] at h3
    have hpre : (splitDots kv'.1).isPrefixOf p = true := by
      rw [List.isPrefixOf_iff_prefix]
      exact ⟨q, hq.symm⟩
    rw [hpre] at h3
    exact absurd h3 (by simp)
  · rw [hq, List.drop_left, hl] at h3
    simpa using h3

theorem flatAux_isSome (input : List (String × JSON)) (hcf : collideFreeB input = true) :
    ∀ (rest : List (String × JSON)) (m : Fields),
      (∀ kv ∈ rest, kv ∈ input) →
      (∀ (p : List String) (w : JSON),
        lookupPath (.obj m) p = some w → isObjB w = false →
        ∃ kv ∈ input, ∃ q, p = splitDots kv.1 ++ q ∧ lookupPath kv.2 q = some w) →
      (flatAux rest m).isSome = true
  | [], m, _, _ => rfl
  | (k, v) :: rest', m, hsub, hinv => by
    have hk : (k, v) ∈ input := hsub _ (List.mem_cons_self _ _)
    cases hsegs : (splitDots k).reverse with
    | nil => exact absurd (List.reverse_eq_nil_iff.mp hsegs) (splitDots_ne_nil k)
    | cons lastKey revKeys =>
      have hsplit : splitDots k = revKeys.reverse ++ [lastKey] := by
        rw [← List.reverse_reverse (splitDots k), hsegs, List.reverse_cons]
      have hdrop : (splitDots k).dropLast = revKeys.reverse := by
        rw [hsplit, List.dropLast_concat]
      have hdesc : ∀ (i : ℕ), i < revKeys.reverse.length →
          ∀ w, lookupPath (.obj m) (revKeys.reverse.take (i + 1)) = some w →
            isObjB w = true := by
        intro i hi w hw
        by_contra hno
        rw [Bool.not_eq_true] at hno
        obtain ⟨kv', hkv', q, hq, hlook⟩ := hinv _ w hw hno
        have hpmem : revKeys.reverse.take (i + 1) ∈ (splitDots k).dropLast.inits := by
          rw [hdrop]
          exact (List.mem_inits _ _).mpr (List.take_prefix _ _)
        have hobj := collideFree_spec input hcf (k, v) hk _ hpmem kv' hkv' q hq w hlook
        rw [hobj] at hno
        exact Bool.noConfusion hno
      obtain ⟨m2, hm2⟩ :=
        Option.isSome_iff_exists.mp (insertPath_isSome revKeys.reverse lastKey v m hdesc)
      have hstep : flatStep m k v = some m2 := by
        rw [flatStep_eq m k v lastKey revKeys hsegs]
        exact hm2
      have hinv2 : ∀ (p : List String) (w : JSON),
          lookupPath (.obj m2) p = some w → isObjB w = false →
          ∃ kv ∈ input, ∃ q, p = splitDots kv.1 ++ q ∧ lookupPath kv.2 q = some w := by
        intro p w hw hnw
        rcases insertPath_lookup revKeys.reverse lastKey v m m2 hm2 p w hw hnw with
          hold | ⟨q, hq, hlq⟩
        · exact hinv p w hold hnw
        · refine ⟨(k, v), hk, q, ?_, hlq⟩
          rw [hq, hsplit, List.append_assoc]
          rfl
      rw [flatAux_cons_eq rest' m k v m2 hstep]
      exact flatAux_isSome input hcf rest' m2
        (fun kv h => hsub kv (List.mem_cons_of_mem _ h)) hinv2

end JsonFlat

/-! ### C10 -/

/-- C10: flat is partial on prefix collisions: on the input object with the
plain binding "a" (a non-object value) inserted before the dotted key "a.b",
the descent hits the non-object at "a" and the runtime map type assertion
fails (modelled as none); and on every input in which no dotted key's
intermediate segment prefix can reach a non-object value through the input
bindings, flat is total and returns an object. -/
theorem c10_flat_partiality :
    JsonFlat.flat [("a", .str "u"), ("a.b", .str "w")] = none ∧
    (∀ (input : List (String × JSON)), JsonFlat.collideFreeB input = true →
      (JsonFlat.flat input).isSome = true) := by
  constructor
  · decide
  · intro input hcf
    have hinit : ∀ (p : List String) (w : JSON),
        lookupPath (.obj Fields.nil) p = some w → isObjB w = false →
        ∃ kv ∈ input, ∃ q, p = splitDots kv.1 ++ q ∧ lookupPath kv.2 q = some w := by
      intro p w hw hnw
      cases p with
      | nil =>
        rw [lookupPath_obj_nil] at hw
        injection hw with hw'
        rw [← hw'] at hnw
        exact absurd hnw (by simp [isObjB])
      | cons a as =>
        rw [lookupPath_cons_none Fields.nil a as rfl] at hw
        exact absurd hw (by simp)
    exact JsonFlat.flatAux_isSome input hcf input Fields.nil (fun kv h => h) hinit

/-- Witness for C10's totality half at the collision-free input
`{"a.b": "u", "c": "w"}`. -/
theorem c10_flat_partiality_witness :
    JsonFlat.collideFreeB [("a.b", .str "u"), ("c", .str "w")] = true ∧
    (JsonFlat.flat [("a.b", .str "u"), ("c", .str "w")]).isSome = true :=
  ⟨by decide, c10_flat_partiality.2 [("a.b", .str "u"), ("c", .str "w")] (by decide)⟩
